import Mathlib

/-!
# A verified model of the concurrent key-value store

This file gives a shallow embedding of the C key-value store
(`kv_store.h` / `kv_store.c`: `store_create`, `store_destroy`,
`store_add_or_update_item`, `store_get_value`) and proves the testable
properties of its specification.

Modelling conventions:
* The flexible-array buffer `pairs[0..item_count)` of live entries is a
  `List KeyValuePair`; `item_count` is the list length.  Slots between
  `item_count` and `capacity` hold no data in the C code, so they are not
  represented.
* Heap allocation (`malloc`, `realloc`) and the fallible `mtx_init` are
  driven by an explicit oracle: a `List Bool` consumed one entry per
  fallible call, `true` meaning the call succeeds.  An exhausted oracle
  means every further call succeeds.
* Every `free` of a store-owned or freshly-copied string is logged in a
  `freed` component, so claims about releasing the old value are statable.
* The counter is an `atomic_uint`: every increment is taken modulo
  `uintModulus = 2 ^ 32`, the wrap of `atomic_fetch_add` on `unsigned int`.
* `NULL` pointers are `Option.none`: the public entry points take
  `Option`s and mirror the C null checks; the lock/unlock calls have no
  observable effect on the data and are not modelled.
-/

set_option autoImplicit false

/-- The number of distinct values of the C `unsigned int`
(`UINT_MAX + 1` with the universal 32-bit `int`): the modulus at which the
`atomic_uint` counter of the store wraps on `atomic_fetch_add`. -/
def uintModulus : Nat := 2 ^ 32

/-- One `KeyValuePair` of the C struct: an owned key string and an owned
value string. -/
structure KeyValuePair where
  key : String
  value : String
deriving Repr, DecidableEq, Inhabited

/-- The `KeyValueStore` struct: the atomic `add_count` (an `atomic_uint`,
so every increment is taken modulo `uintModulus`; any value reachable from
`store_create` is below `uintModulus`), the `capacity` bookkeeping, and the
live entries `pairs[0..item_count)`.  The mutex has no observable state and
is omitted. -/
structure KeyValueStore where
  add_count : Nat
  capacity : Nat
  pairs : List KeyValuePair
deriving Repr, DecidableEq, Inhabited

/-- The `item_count` field of the C struct: the number of live entries. -/
def KeyValueStore.item_count (s : KeyValueStore) : Nat :=
  s.pairs.length

/-- The keys currently stored, in buffer order. -/
def KeyValueStore.keys (s : KeyValueStore) : List String :=
  s.pairs.map KeyValuePair.key

/-- Pop one answer from the allocation oracle: the head decides whether the
next fallible call (malloc / realloc / mtx_init) succeeds; an exhausted oracle
means success. -/
def allocNext (a : List Bool) : Bool × List Bool :=
  (a.headD true, a.tail)

/-- The C helper `duplicate_string`: returns `NULL` for a `NULL` argument without
allocating, otherwise consumes one oracle answer and returns a copy of the
string on success, `NULL` on allocation failure. -/
def duplicate_string (a : List Bool) (src : Option String) :
    Option String × List Bool :=
  match src with
  | none => (none, a)
  | some s =>
    let (ok, a') := allocNext a
    (if ok then some s else none, a')

/-- The C function `store_create`: a requested capacity of `0` is normalized to `8`; the
`malloc` of the store block and `mtx_init` each consume one oracle answer and
each failure yields `NULL`; on success the store starts with `add_count = 0`,
`item_count = 0` and the normalized capacity. -/
def store_create (a : List Bool) (initial_capacity : Nat) :
    Option KeyValueStore × List Bool :=
  let cap := if initial_capacity = 0 then 8 else initial_capacity
  let (mallocOk, a1) := allocNext a
  if mallocOk then
    let (mtxOk, a2) := allocNext a1
    if mtxOk then
      (some { add_count := 0, capacity := cap, pairs := [] }, a2)
    else
      (none, a2)
  else
    (none, a1)

/-- The C function `store_destroy`: a `NULL` store is a no-op; otherwise every owned key and
value of `pairs[0..item_count)` is freed (the store block itself is also
freed, but it is not a string and is not listed).  The result is the list of
freed strings in free order. -/
def store_destroy : Option KeyValueStore → List String
  | none => []
  | some s => s.pairs.flatMap (fun p => [p.key, p.value])

/-- The scan loop of `store_add_or_update_item` (lines 50-63): walk
`pairs[0..item_count)` looking for a byte-equal key.  `none` means the key was
not found and control falls through to the insert path.  On a match, one
oracle answer is consumed for `duplicate_string(value)`: on failure the result
is `(false, unchanged pairs, no frees)`; on success the old value of the
matching entry is freed and replaced by the copy and the result is `true`. -/
def scan_update (a : List Bool) (key value : String) :
    List KeyValuePair → Option (Bool × List KeyValuePair × List String × List Bool)
  | [] => none
  | p :: rest =>
    if p.key = key then
      let (newValue, a1) := duplicate_string a (some value)
      match newValue with
      | none => some (false, p :: rest, [], a1)
      | some nv => some (true, { key := p.key, value := nv } :: rest, [p.value], a1)
    else
      (scan_update a key value rest).map
        (fun r => (r.1, p :: r.2.1, r.2.2))

/-- Result of one `store_add_or_update_item` call on a non-`NULL` store and
non-`NULL` key/value: the boolean return, the store reachable through
`*store_ptr` after the call, the strings freed during the call, and the
remaining allocation oracle. -/
structure UpsertResult where
  ok : Bool
  store : KeyValueStore
  freed : List String
  alloc : List Bool
deriving Repr, DecidableEq

/-- The body of `store_add_or_update_item` after the null checks
(lines 48-92).  Update path: see `scan_update`.  Insert path: if
`item_count ≥ capacity` the buffer is grown by `realloc` to double capacity
(one oracle answer; failure returns `false` with the store untouched — the
safe realloc idiom); then `duplicate_string(key)` and `duplicate_string(value)`
each consume an answer; if either copy fails, whichever copy succeeded is
freed and the call returns `false` (capacity keeps any growth); otherwise the
new entry is appended, `item_count` and `add_count` are incremented and the
call returns `true`. -/
def store_upsert (a : List Bool) (store : KeyValueStore) (key value : String) :
    UpsertResult :=
  match scan_update a key value store.pairs with
  | some r =>
    { ok := r.1
      store := { store with
                 pairs := r.2.1
                 add_count := if r.1 then (store.add_count + 1) % uintModulus
                   else store.add_count }
      freed := r.2.2.1
      alloc := r.2.2.2 }
  | none =>
    let growStep : Option Nat × List Bool :=
      if store.pairs.length ≥ store.capacity then
        let (ok, a') := allocNext a
        (if ok then some (store.capacity * 2) else none, a')
      else
        (some store.capacity, a)
    match growStep with
    | (none, a1) => { ok := false, store := store, freed := [], alloc := a1 }
    | (some cap', a1) =>
      let st1 : KeyValueStore := { store with capacity := cap' }
      let (newKey, a2) := duplicate_string a1 (some key)
      let (newValue, a3) := duplicate_string a2 (some value)
      match newKey, newValue with
      | some k', some v' =>
        { ok := true
          store := { st1 with
                     pairs := st1.pairs ++ [{ key := k', value := v' }]
                     add_count := (st1.add_count + 1) % uintModulus }
          freed := []
          alloc := a3 }
      | nk, nv =>
        { ok := false, store := st1, freed := nk.toList ++ nv.toList, alloc := a3 }

/-- The C function `store_add_or_update_item` with its null checks (lines 44-45): a `NULL`
`store_ptr`, `NULL` `*store_ptr`, `NULL` key or `NULL` value returns `false`
touching nothing; otherwise the body `store_upsert` runs and `*store_ptr` is
the resulting store. -/
def store_add_or_update_item (a : List Bool)
    (store_ptr : Option (Option KeyValueStore)) (key value : Option String) :
    Bool × Option (Option KeyValueStore) × List String × List Bool :=
  match store_ptr, key, value with
  | some (some st), some k, some v =>
    let r := store_upsert a st k v
    (r.ok, some (some r.store), r.freed, r.alloc)
  | _, _, _ => (false, store_ptr, [], a)

/-- The scan loop of `store_get_value` (lines 100-105): the value of the
first entry whose key is byte-equal, else `NULL`. -/
def findValue : List KeyValuePair → String → Option String
  | [], _ => none
  | p :: rest, k => if p.key = k then some p.value else findValue rest k

/-- The C function `store_get_value` (lines 95-108): `NULL` store or key returns `NULL`;
otherwise the value of the first matching entry, or `NULL` if none matches.
The second component is the store after the call — the C body only reads, so
it is returned unchanged. -/
def store_get_value (store : Option KeyValueStore) (key : Option String) :
    Option String × Option KeyValueStore :=
  match store, key with
  | some st, some k => (findValue st.pairs k, some st)
  | _, _ => (none, store)

/-- Run a sequence of upsert calls, each with its own allocation oracle;
returns the final store and the list of boolean results in call order. -/
def runUpserts : KeyValueStore → List (List Bool × String × String) →
    KeyValueStore × List Bool
  | st, [] => (st, [])
  | st, (a, k, v) :: ops =>
    let r := store_upsert a st k v
    let next := runUpserts r.store ops
    (next.1, r.ok :: next.2)

/-- Run a sequence of upsert calls under an always-succeeding allocator. -/
def runAll : KeyValueStore → List (String × String) → KeyValueStore
  | st, [] => st
  | st, (k, v) :: ops => runAll (store_upsert [] st k v).store ops

/-- The keys of `pairs[0..item_count)` are pairwise distinct. -/
def NodupKeys (s : KeyValueStore) : Prop :=
  s.keys.Nodup

instance : DecidablePred NodupKeys := fun s =>
  inferInstanceAs (Decidable s.keys.Nodup)

/-- Replace the value of the first entry whose key is `key` (the write the
update path of the C loop performs). -/
def updateValue (key value : String) : List KeyValuePair → List KeyValuePair
  | [] => []
  | p :: rest =>
    if p.key = key then { key := p.key, value := value } :: rest
    else p :: updateValue key value rest

/-- View of the update path of `store_upsert`: one value copy decides
success. -/
def updateOutcome (a : List Bool) (st : KeyValueStore) (k v oldv : String) :
    UpsertResult :=
  if (allocNext a).1 then
    { ok := true
      store := { st with
                 pairs := updateValue k v st.pairs
                 add_count := (st.add_count + 1) % uintModulus }
      freed := [oldv]
      alloc := (allocNext a).2 }
  else
    { ok := false, store := st, freed := [], alloc := (allocNext a).2 }

/-- View of the key/value copies of the insert path, after any growth. -/
def insertCopies (a : List Bool) (st : KeyValueStore) (k v : String) :
    UpsertResult :=
  let (okK, a2) := allocNext a
  let (okV, a3) := allocNext a2
  if okK then
    if okV then
      { ok := true
        store := { st with
                   pairs := st.pairs ++ [{ key := k, value := v }]
                   add_count := (st.add_count + 1) % uintModulus }
        freed := []
        alloc := a3 }
    else { ok := false, store := st, freed := [k], alloc := a3 }
  else
    if okV then { ok := false, store := st, freed := [v], alloc := a3 }
    else { ok := false, store := st, freed := [], alloc := a3 }

/-- View of the whole insert path: growth (when full), then the copies. -/
def insertOutcome (a : List Bool) (st : KeyValueStore) (k v : String) :
    UpsertResult :=
  if st.pairs.length ≥ st.capacity then
    if (allocNext a).1 then
      insertCopies (allocNext a).2 { st with capacity := st.capacity * 2 } k v
    else
      { ok := false, store := st, freed := [], alloc := (allocNext a).2 }
  else
    insertCopies a st k v

/-- The last value a call sequence writes to key `k`, if any write occurs. -/
def lastWrite (ops : List (String × String)) (k : String) : Option String :=
  ((ops.filter (fun op => op.1 = k)).getLast?).map Prod.snd

/-- The upsert calls one worker thread `t` of the stress harness performs, in
program order (`worker_thread`): insert keys `key t 0 .. key t (D-1)`, each
with the thread's value `val t`, then re-upsert the thread's key `0` with the
literal `"UPDATED_VALUE"`. -/
def threadOps (D : Nat) (key : Nat → Nat → String) (val : Nat → String)
    (t : Nat) : List (String × String) :=
  (List.range D).map (fun i => (key t i, val t)) ++
    [(key t 0, "UPDATED_VALUE")]

/-- All upsert calls of the `T` worker threads of the stress harness, thread
by thread (one particular serialization; an actual run is any interleaving
that keeps each thread's calls in program order). -/
def allOps (T D : Nat) (key : Nat → Nat → String) (val : Nat → String) :
    List (String × String) :=
  (List.range T).flatMap (threadOps D key val)

example :
    store_upsert [] ⟨0, 2, []⟩ "a" "x" =
      ⟨true, ⟨1, 2, [⟨"a", "x"⟩]⟩, [], []⟩ := by decide

example :
    store_upsert [] ⟨1, 1, [⟨"a", "x"⟩]⟩ "b" "y" =
      ⟨true, ⟨2, 2, [⟨"a", "x"⟩, ⟨"b", "y"⟩]⟩, [], []⟩ := by decide

example :
    store_upsert [] ⟨2, 2, [⟨"a", "x"⟩, ⟨"b", "y"⟩]⟩ "a" "z" =
      ⟨true, ⟨3, 2, [⟨"a", "z"⟩, ⟨"b", "y"⟩]⟩, ["x"], []⟩ := by decide

example :
    store_upsert [true, false, true] ⟨0, 1, [⟨"a", "x"⟩]⟩ "b" "y" =
      ⟨false, ⟨0, 2, [⟨"a", "x"⟩]⟩, ["y"], []⟩ := by decide

example :
    store_create [] 0 = (some ⟨0, 8, []⟩, []) := by decide

/-! ## Helper lemmas and the characterization of the scan loop -/

theorem map_key_updateValue (key value : String) (l : List KeyValuePair) :
    (updateValue key value l).map KeyValuePair.key = l.map KeyValuePair.key := by
  induction l with
  | nil => rfl
  | cons p rest ih =>
    by_cases h : p.key = key <;> simp [updateValue, h, ih]

theorem length_updateValue (key value : String) (l : List KeyValuePair) :
    (updateValue key value l).length = l.length := by
  induction l with
  | nil => rfl
  | cons p rest ih =>
    by_cases h : p.key = key <;> simp [updateValue, h, ih]

theorem findValue_none_iff (l : List KeyValuePair) (k : String) :
    findValue l k = none ↔ k ∉ l.map KeyValuePair.key := by
  induction l with
  | nil => simp [findValue]
  | cons p rest ih =>
    by_cases h : p.key = k
    · simp [findValue, h]
    · have h' : k ≠ p.key := fun he => h he.symm
      simp [findValue, h, h', ih]

theorem findValue_eq_some_of_mem (l : List KeyValuePair) (k v : String)
    (hnd : (l.map KeyValuePair.key).Nodup)
    (hmem : (⟨k, v⟩ : KeyValuePair) ∈ l) : findValue l k = some v := by
  induction l with
  | nil => simp at hmem
  | cons p rest ih =>
    simp only [List.map_cons, List.nodup_cons] at hnd
    rcases List.mem_cons.mp hmem with h | h
    · simp [findValue, ← h]
    · have hk : k ∈ rest.map KeyValuePair.key :=
        List.mem_map.mpr ⟨⟨k, v⟩, h, rfl⟩
      have hpk : p.key ≠ k := fun he => hnd.1 (he ▸ hk)
      simp [findValue, hpk, ih hnd.2 h]

theorem findValue_append (l₁ l₂ : List KeyValuePair) (k : String) :
    findValue (l₁ ++ l₂) k =
      ((findValue l₁ k).rec (findValue l₂ k) (fun v => some v)) := by
  induction l₁ with
  | nil => simp [findValue]
  | cons p rest ih =>
    by_cases h : p.key = k <;> simp [findValue, h, ih]

theorem findValue_updateValue_self (l : List KeyValuePair) (k v : String)
    (hfound : findValue l k ≠ none) :
    findValue (updateValue k v l) k = some v := by
  induction l with
  | nil => simp [findValue] at hfound
  | cons p rest ih =>
    by_cases h : p.key = k
    · simp [updateValue, findValue, h]
    · simp only [findValue, h, if_false] at hfound
      simp [updateValue, findValue, h, ih hfound]

theorem findValue_updateValue_other (l : List KeyValuePair) (k v k' : String)
    (hne : k' ≠ k) :
    findValue (updateValue k v l) k' = findValue l k' := by
  induction l with
  | nil => rfl
  | cons p rest ih =>
    by_cases h : p.key = k
    · have hkk : k ≠ k' := fun he => hne he.symm
      simp [updateValue, findValue, h, hkk]
    · simp only [updateValue, if_neg h]
      by_cases h' : p.key = k' <;> simp [findValue, h', ih]

/-- When the keys of `l` are pairwise distinct, updating the first match is
updating every match: the store after an update is the pointwise image that
rewrites exactly the entry keyed `k`. -/
theorem updateValue_eq_map_of_nodup (l : List KeyValuePair) (k v : String)
    (hnd : (l.map KeyValuePair.key).Nodup) :
    updateValue k v l =
      l.map (fun p => if p.key = k then { key := p.key, value := v } else p) := by
  induction l with
  | nil => rfl
  | cons p rest ih =>
    simp only [List.map_cons, List.nodup_cons] at hnd
    by_cases h : p.key = k
    · have hrest : ∀ q ∈ rest, ¬ q.key = k := by
        intro q hq he
        exact hnd.1 (h ▸ he ▸ List.mem_map.mpr ⟨q, hq, rfl⟩)
      have : rest.map (fun p => if p.key = k then { key := p.key, value := v } else p)
          = rest := by
        conv_rhs => rw [← List.map_id rest]
        apply List.map_congr_left
        intro q hq
        simp [hrest q hq]
      simp [updateValue, h, this]
    · simp [updateValue, h, ih hnd.2]

/-- Characterization of the scan loop: it fails to find the key exactly when
`findValue` does; on a hit it consumes one oracle answer and either commits
the value replacement (freeing the old value) or reports failure leaving the
entries untouched. -/
theorem scan_update_eq (a : List Bool) (key value : String)
    (l : List KeyValuePair) :
    scan_update a key value l =
      match findValue l key with
      | none => none
      | some oldv =>
        if (allocNext a).1 then
          some (true, updateValue key value l, [oldv], (allocNext a).2)
        else
          some (false, l, [], (allocNext a).2) := by
  induction l with
  | nil => rfl
  | cons p rest ih =>
    by_cases h : p.key = key
    · by_cases ha : (allocNext a).1 = true <;>
        simp [scan_update, findValue, updateValue, h, duplicate_string, ha]
    · simp only [scan_update, if_neg h, ih]
      cases hf : findValue rest key with
      | none => simp [findValue, h, hf]
      | some oldv =>
        by_cases ha : (allocNext a).1 = true <;>
          simp [findValue, updateValue, h, hf, ha]

/-! ## Outcome views of `store_upsert` -/

/-- The function `store_upsert` is the update outcome when the key is present and the
insert outcome when it is absent. -/
theorem store_upsert_eq (a : List Bool) (st : KeyValueStore) (k v : String) :
    store_upsert a st k v =
      match findValue st.pairs k with
      | some oldv => updateOutcome a st k v oldv
      | none => insertOutcome a st k v := by
  unfold store_upsert
  rw [scan_update_eq]
  cases hf : findValue st.pairs k with
  | some oldv =>
    by_cases ha : (allocNext a).1 = true <;> simp [updateOutcome, ha]
  | none =>
    by_cases hfull : st.pairs.length ≥ st.capacity
    · by_cases hg : (allocNext a).1 = true
      · by_cases hk : (allocNext (allocNext a).2).1 = true <;>
          by_cases hv : (allocNext (allocNext (allocNext a).2).2).1 = true <;>
            simp [insertOutcome, insertCopies, duplicate_string, hfull, hg, hk, hv]
      · simp [insertOutcome, hfull, hg]
    · by_cases hk : (allocNext a).1 = true <;>
        by_cases hv : (allocNext (allocNext a).2).1 = true <;>
          simp [insertOutcome, insertCopies, duplicate_string, hfull, hk, hv]

/-! ## Structural lemmas about one upsert call -/

theorem store_upsert_add_count (a : List Bool) (st : KeyValueStore)
    (k v : String) :
    (store_upsert a st k v).store.add_count =
      if (store_upsert a st k v).ok then (st.add_count + 1) % uintModulus
      else st.add_count := by
  rw [store_upsert_eq]
  cases hf : findValue st.pairs k <;>
    simp only [updateOutcome, insertOutcome, insertCopies, allocNext] <;>
    split_ifs <;> simp_all

theorem store_upsert_capacity (a : List Bool) (st : KeyValueStore)
    (k v : String) :
    (store_upsert a st k v).store.capacity = st.capacity ∨
      ((store_upsert a st k v).store.capacity = st.capacity * 2 ∧
        findValue st.pairs k = none ∧ st.capacity ≤ st.pairs.length) := by
  rw [store_upsert_eq]
  cases hf : findValue st.pairs k <;>
    simp only [updateOutcome, insertOutcome, insertCopies, allocNext, ge_iff_le] <;>
    split_ifs <;> simp_all

theorem store_upsert_fail_pairs (a : List Bool) (st : KeyValueStore)
    (k v : String) (h : (store_upsert a st k v).ok = false) :
    (store_upsert a st k v).store.pairs = st.pairs := by
  rw [store_upsert_eq] at h ⊢
  cases hf : findValue st.pairs k <;> rw [hf] at h <;>
    revert h <;>
    simp only [updateOutcome, insertOutcome, insertCopies, allocNext] <;>
    split_ifs <;> simp

theorem store_upsert_keys (a : List Bool) (st : KeyValueStore) (k v : String) :
    (store_upsert a st k v).store.keys = st.keys ∨
      ((store_upsert a st k v).store.keys = st.keys ++ [k] ∧
        findValue st.pairs k = none ∧ (store_upsert a st k v).ok = true) := by
  rw [store_upsert_eq]
  cases hf : findValue st.pairs k <;>
    simp only [updateOutcome, insertOutcome, insertCopies, allocNext,
      KeyValueStore.keys] <;>
    split_ifs <;>
    simp [map_key_updateValue, KeyValueStore.keys, hf]

theorem NodupKeys_store_upsert (a : List Bool) (st : KeyValueStore)
    (k v : String) (h : NodupKeys st) :
    NodupKeys (store_upsert a st k v).store := by
  rcases store_upsert_keys a st k v with hk | ⟨hk, hf, _⟩
  · unfold NodupKeys
    rw [hk]
    exact h
  · unfold NodupKeys
    rw [hk, List.nodup_append]
    refine ⟨h, List.nodup_singleton k, ?_⟩
    intro x hx hx'
    rw [List.mem_singleton] at hx'
    subst hx'
    exact (findValue_none_iff st.pairs x).mp hf hx

theorem store_upsert_nil_found (st : KeyValueStore) (k v oldv : String)
    (hf : findValue st.pairs k = some oldv) :
    store_upsert [] st k v =
      { ok := true
        store := { st with
                   pairs := updateValue k v st.pairs
                   add_count := (st.add_count + 1) % uintModulus }
        freed := [oldv]
        alloc := [] } := by
  rw [store_upsert_eq, hf]
  simp [updateOutcome, allocNext]

theorem store_upsert_nil_notfound (st : KeyValueStore) (k v : String)
    (hf : findValue st.pairs k = none) :
    store_upsert [] st k v =
      { ok := true
        store := { add_count := (st.add_count + 1) % uintModulus
                   capacity := if st.capacity ≤ st.pairs.length then
                       st.capacity * 2
                     else st.capacity
                   pairs := st.pairs ++ [{ key := k, value := v }] }
        freed := []
        alloc := [] } := by
  rw [store_upsert_eq, hf]
  by_cases hfull : st.capacity ≤ st.pairs.length <;>
    simp [insertOutcome, insertCopies, allocNext, hfull]

theorem store_upsert_nil_ok (st : KeyValueStore) (k v : String) :
    (store_upsert [] st k v).ok = true := by
  cases hf : findValue st.pairs k with
  | some oldv => rw [store_upsert_nil_found st k v oldv hf]
  | none => rw [store_upsert_nil_notfound st k v hf]

/-- After an upsert under an always-succeeding allocator, `k'` reads back as
the value just written and every other key reads back unchanged. -/
theorem findValue_store_upsert_nil (st : KeyValueStore) (k' v' k : String) :
    findValue (store_upsert [] st k' v').store.pairs k =
      if k = k' then some v' else findValue st.pairs k := by
  cases hf : findValue st.pairs k' with
  | some oldv =>
    rw [store_upsert_nil_found st k' v' oldv hf]
    by_cases h : k = k'
    · subst h
      simp [findValue_updateValue_self st.pairs k v' (by rw [hf]; exact fun hc => by cases hc)]
    · simp [h, findValue_updateValue_other st.pairs k' v' k h]
  | none =>
    rw [store_upsert_nil_notfound st k' v' hf]
    by_cases h : k = k'
    · subst h
      simp only [findValue_append, hf]
      simp [findValue]
    · have h' : k' ≠ k := fun he => h he.symm
      simp only [findValue_append]
      cases hx : findValue st.pairs k
      · simp [findValue, h, h', hx]
      · simp [h, hx]

/-! ## Sequences of calls -/

theorem runUpserts_add_count (ops : List (List Bool × String × String))
    (st : KeyValueStore) (hlt : st.add_count < uintModulus) :
    (runUpserts st ops).1.add_count =
      (st.add_count + (runUpserts st ops).2.count true) % uintModulus := by
  induction ops generalizing st with
  | nil =>
    simp only [runUpserts, List.count_nil, Nat.add_zero]
    exact (Nat.mod_eq_of_lt hlt).symm
  | cons op ops ih =>
    obtain ⟨a, k, v⟩ := op
    simp only [runUpserts, List.count_cons]
    have hlt' : (store_upsert a st k v).store.add_count < uintModulus := by
      rw [store_upsert_add_count]
      split_ifs
      · exact Nat.mod_lt _ (by decide)
      · exact hlt
    rw [ih _ hlt', store_upsert_add_count]
    by_cases hok : (store_upsert a st k v).ok = true
    · rw [if_pos hok]
      simp only [hok, beq_self_eq_true, if_true, Nat.mod_add_mod]
      congr 1
      omega
    · rw [if_neg hok]
      simp [hok]

theorem runAll_add_count (ops : List (String × String)) (st : KeyValueStore)
    (hlt : st.add_count < uintModulus) :
    (runAll st ops).add_count = (st.add_count + ops.length) % uintModulus := by
  induction ops generalizing st with
  | nil =>
    simp only [runAll, List.length_nil, Nat.add_zero]
    exact (Nat.mod_eq_of_lt hlt).symm
  | cons op ops ih =>
    obtain ⟨k, v⟩ := op
    simp only [runAll, List.length_cons]
    have hlt' : (store_upsert [] st k v).store.add_count < uintModulus := by
      rw [store_upsert_add_count, if_pos (store_upsert_nil_ok st k v)]
      exact Nat.mod_lt _ (by decide)
    rw [ih _ hlt', store_upsert_add_count, if_pos (store_upsert_nil_ok st k v),
      Nat.mod_add_mod]
    congr 1
    omega

theorem NodupKeys_runAll (ops : List (String × String)) (st : KeyValueStore)
    (h : NodupKeys st) : NodupKeys (runAll st ops) := by
  induction ops generalizing st with
  | nil => exact h
  | cons op ops ih =>
    obtain ⟨k, v⟩ := op
    exact ih _ (NodupKeys_store_upsert [] st k v h)

theorem mem_keys_store_upsert_nil (st : KeyValueStore) (k' v' k : String) :
    k ∈ (store_upsert [] st k' v').store.keys ↔ k ∈ st.keys ∨ k = k' := by
  cases hf : findValue st.pairs k' with
  | some oldv =>
    have hk' : k' ∈ st.keys := by
      by_contra hc
      rw [(findValue_none_iff st.pairs k').mpr hc] at hf
      cases hf
    rw [store_upsert_nil_found st k' v' oldv hf]
    unfold KeyValueStore.keys at hk' ⊢
    simp only [map_key_updateValue]
    constructor
    · exact Or.inl
    · rintro (h | h)
      · exact h
      · exact h ▸ hk'
  | none =>
    rw [store_upsert_nil_notfound st k' v' hf]
    unfold KeyValueStore.keys
    simp

theorem mem_keys_runAll (ops : List (String × String)) (st : KeyValueStore)
    (k : String) :
    k ∈ (runAll st ops).keys ↔ k ∈ st.keys ∨ k ∈ ops.map Prod.fst := by
  induction ops generalizing st with
  | nil => simp [runAll]
  | cons op ops ih =>
    obtain ⟨k', v'⟩ := op
    simp only [runAll, ih, mem_keys_store_upsert_nil, List.map_cons,
      List.mem_cons]
    tauto

theorem getLast?_cons {α : Type} (x : α) (l : List α) :
    (x :: l).getLast? = some (l.getLast?.getD x) := by
  induction l generalizing x with
  | nil => rfl
  | cons y ys ih =>
    rw [List.getLast?_cons_cons, ih y]
    simp

theorem lastWrite_cons (k' v' : String) (ops : List (String × String))
    (k : String) :
    lastWrite ((k', v') :: ops) k =
      match lastWrite ops k with
      | some w => some w
      | none => if k' = k then some v' else none := by
  unfold lastWrite
  rw [List.filter_cons]
  simp only [decide_eq_true_eq]
  by_cases h : k' = k
  · rw [if_pos h, getLast?_cons]
    cases hrest : (ops.filter (fun op => op.1 = k)).getLast? <;> simp [hrest, h]
  · rw [if_neg h]
    cases hrest : (ops.filter (fun op => op.1 = k)).getLast? <;> simp [hrest, h]

/-- Reading a key after a call sequence under an always-succeeding allocator
returns the last value written to it, or the original binding if the sequence
never writes it. -/
theorem findValue_runAll (ops : List (String × String)) (st : KeyValueStore)
    (k : String) :
    findValue (runAll st ops).pairs k =
      match lastWrite ops k with
      | some w => some w
      | none => findValue st.pairs k := by
  induction ops generalizing st with
  | nil => simp [runAll, lastWrite]
  | cons op ops ih =>
    obtain ⟨k', v'⟩ := op
    simp only [runAll]
    rw [ih, lastWrite_cons, findValue_store_upsert_nil]
    cases hlw : lastWrite ops k with
    | some w => simp
    | none =>
      by_cases h : k' = k
      · simp [h]
      · have h' : k ≠ k' := fun he => h he.symm
        simp [h, h']

theorem store_create_elim (a : List Bool) (c : Nat) (st : KeyValueStore)
    (rest : List Bool) (h : store_create a c = (some st, rest)) :
    st.add_count = 0 ∧ st.capacity = (if c = 0 then 8 else c) ∧
      st.pairs = [] := by
  unfold store_create allocNext at h
  dsimp only at h
  by_cases h1 : a.headD true = true
  · rw [if_pos h1] at h
    by_cases h2 : a.tail.headD true = true
    · rw [if_pos h2, Prod.mk.injEq, Option.some.injEq] at h
      obtain ⟨hst, -⟩ := h
      subst hst
      exact ⟨rfl, rfl, rfl⟩
    · rw [if_neg h2] at h
      exact absurd (congrArg Prod.fst h) (by simp)
  · rw [if_neg h1] at h
    exact absurd (congrArg Prod.fst h) (by simp)

theorem NodupKeys_runUpserts (ops : List (List Bool × String × String))
    (st : KeyValueStore) (h : NodupKeys st) :
    NodupKeys (runUpserts st ops).1 := by
  induction ops generalizing st with
  | nil => exact h
  | cons op ops ih =>
    obtain ⟨a, k, v⟩ := op
    exact ih _ (NodupKeys_store_upsert a st k v h)

/-! ## The claims -/

/-- Claim C1, counterexample: an upsert that reports failure can change
`capacity`.  On a full store holding only key `"a"`, upserting the fresh key
`"b"` with an allocator that lets the growth `realloc` succeed and then fails
the `duplicate_string` of the key returns `false`, yet the capacity has been
doubled from 1 to 2. -/
theorem upsert_failure_capacity_counterexample :
    (store_upsert [true, false, true]
        { add_count := 0, capacity := 1, pairs := [{ key := "a", value := "x" }] }
        "b" "y").ok = false ∧
    (store_upsert [true, false, true]
        { add_count := 0, capacity := 1, pairs := [{ key := "a", value := "x" }] }
        "b" "y").store.capacity = 2 := by decide

/-- Claim C1 as amended: an upsert that reports failure leaves the length, every
existing entry (all keys and values) and the mutation counter unchanged;
`capacity` is also unchanged except in one case: the key was absent, the
buffer was full, and the growth `realloc` succeeded before a key/value copy
failed — then the capacity has been doubled (the entries are still intact). -/
theorem upsert_failure_frame (a : List Bool) (st : KeyValueStore)
    (k v : String) (h : (store_upsert a st k v).ok = false) :
    (store_upsert a st k v).store.pairs = st.pairs ∧
    (store_upsert a st k v).store.item_count = st.item_count ∧
    (store_upsert a st k v).store.add_count = st.add_count ∧
    ((store_upsert a st k v).store.capacity = st.capacity ∨
      ((store_upsert a st k v).store.capacity = st.capacity * 2 ∧
        findValue st.pairs k = none ∧ st.capacity ≤ st.pairs.length)) := by
  refine ⟨store_upsert_fail_pairs a st k v h, ?_, ?_,
    store_upsert_capacity a st k v⟩
  · unfold KeyValueStore.item_count
    rw [store_upsert_fail_pairs a st k v h]
  · rw [store_upsert_add_count]
    simp [h]

/-- Witness for `upsert_failure_frame` at the concrete failing input of the
counterexample. -/
theorem upsert_failure_frame_witness :
    (store_upsert [true, false, true]
        { add_count := 0, capacity := 1, pairs := [{ key := "a", value := "x" }] }
        "b" "y").store.pairs = [{ key := "a", value := "x" }] ∧
    (store_upsert [true, false, true]
        { add_count := 0, capacity := 1, pairs := [{ key := "a", value := "x" }] }
        "b" "y").store.item_count = 1 ∧
    (store_upsert [true, false, true]
        { add_count := 0, capacity := 1, pairs := [{ key := "a", value := "x" }] }
        "b" "y").store.add_count = 0 ∧
    ((store_upsert [true, false, true]
        { add_count := 0, capacity := 1, pairs := [{ key := "a", value := "x" }] }
        "b" "y").store.capacity = 1 ∨
      ((store_upsert [true, false, true]
          { add_count := 0, capacity := 1, pairs := [{ key := "a", value := "x" }] }
          "b" "y").store.capacity = 1 * 2 ∧
        findValue [{ key := "a", value := "x" }] "b" = none ∧
        (1 : Nat) ≤ 1)) :=
  upsert_failure_frame [true, false, true]
    { add_count := 0, capacity := 1, pairs := [{ key := "a", value := "x" }] }
    "b" "y" (by decide)

theorem runUpserts_results_replicate (n : Nat) (st : KeyValueStore)
    (k v : String) :
    (runUpserts st (List.replicate n ([], k, v))).2 =
      List.replicate n true := by
  induction n generalizing st with
  | zero => rfl
  | succ m ih =>
    simp [runUpserts, store_upsert_nil_ok, ih, List.replicate_succ]

/-- Claim C2, counterexample: the counter is a C `atomic_uint` and wraps at
`UINT_MAX`.  After `2 ^ 32` successful upserts from a fresh store (reachable
in constant memory by updating the same key over and over) the counter reads
`0`: the claim "after N successful upserts the counter equals N" fails at
`N = 2 ^ 32`. -/
theorem add_count_wraparound_counterexample :
    (runUpserts { add_count := 0, capacity := 8, pairs := [] }
        (List.replicate (2 ^ 32) ([], "a", "x"))).2.count true = 2 ^ 32 ∧
    (runUpserts { add_count := 0, capacity := 8, pairs := [] }
        (List.replicate (2 ^ 32) ([], "a", "x"))).1.add_count = 0 ∧
    (runUpserts { add_count := 0, capacity := 8, pairs := [] }
        (List.replicate (2 ^ 32) ([], "a", "x"))).1.add_count ≠ 2 ^ 32 := by
  have hcnt : (runUpserts { add_count := 0, capacity := 8, pairs := [] }
      (List.replicate (2 ^ 32) ([], "a", "x"))).2.count true = 2 ^ 32 := by
    rw [runUpserts_results_replicate, List.count_replicate_self]
  have hadd : (runUpserts { add_count := 0, capacity := 8, pairs := [] }
      (List.replicate (2 ^ 32) ([], "a", "x"))).1.add_count = 0 := by
    rw [runUpserts_add_count _ _ (by decide), hcnt, Nat.zero_add]
    decide
  exact ⟨hcnt, hadd, by rw [hadd]; decide⟩

/-- Claim C2 as amended: `add_count` is an `atomic_uint`, so each successful
upsert (insert or update alike) increments it by one modulo `uintModulus`
and a failed call never changes it; consequently, after any call sequence
from a freshly created store the counter equals the number N of successful
calls taken modulo `uintModulus` — in particular it equals N itself whenever
N < `uintModulus`, which covers every run that does not overflow the
C counter. -/
theorem add_count_counts_successes :
    (∀ a st k v, (store_upsert a st k v).store.add_count =
        if (store_upsert a st k v).ok then (st.add_count + 1) % uintModulus
        else st.add_count) ∧
    (∀ a c st rest, store_create a c = (some st, rest) →
      ∀ ops, (runUpserts st ops).1.add_count =
          (runUpserts st ops).2.count true % uintModulus ∧
        ((runUpserts st ops).2.count true < uintModulus →
          (runUpserts st ops).1.add_count =
            (runUpserts st ops).2.count true)) := by
  refine ⟨store_upsert_add_count, fun a c st rest h ops => ?_⟩
  have h0 := (store_create_elim a c st rest h).1
  have hmod := runUpserts_add_count ops st (by rw [h0]; decide)
  rw [h0, Nat.zero_add] at hmod
  exact ⟨hmod, fun hsmall => by rw [hmod, Nat.mod_eq_of_lt hsmall]⟩

/-- Witness for `add_count_counts_successes`: a fresh store, one successful
insert, one failed update (value copy fails), one successful update. -/
theorem add_count_counts_successes_witness :
    ((runUpserts { add_count := 0, capacity := 8, pairs := [] }
        [([], "a", "x"), ([false], "a", "y"), ([], "a", "z")]).1.add_count =
      (runUpserts { add_count := 0, capacity := 8, pairs := [] }
        [([], "a", "x"), ([false], "a", "y"), ([], "a", "z")]).2.count true %
        uintModulus) ∧
    ((runUpserts { add_count := 0, capacity := 8, pairs := [] }
        [([], "a", "x"), ([false], "a", "y"), ([], "a", "z")]).2.count true <
        uintModulus →
      (runUpserts { add_count := 0, capacity := 8, pairs := [] }
        [([], "a", "x"), ([false], "a", "y"), ([], "a", "z")]).1.add_count =
      (runUpserts { add_count := 0, capacity := 8, pairs := [] }
        [([], "a", "x"), ([false], "a", "y"), ([], "a", "z")]).2.count true) :=
  add_count_counts_successes.2 [] 0 { add_count := 0, capacity := 8, pairs := [] }
    [] (by decide) [([], "a", "x"), ([false], "a", "y"), ([], "a", "z")]

/-- Claim C5: a successful upsert of a key `k` already bound to `oldv` keeps
the length and capacity, rewrites exactly the entry keyed `k` to the new
value (every other entry's key and value are untouched, and `k`'s key string
itself is kept), and frees exactly the previous value `oldv`. -/
theorem update_overwrite_frame (a : List Bool) (st : KeyValueStore)
    (k v oldv : String) (hnd : NodupKeys st)
    (hmem : ({ key := k, value := oldv } : KeyValuePair) ∈ st.pairs)
    (hok : (store_upsert a st k v).ok = true) :
    (store_upsert a st k v).store.item_count = st.item_count ∧
    (store_upsert a st k v).store.capacity = st.capacity ∧
    (store_upsert a st k v).store.pairs =
      st.pairs.map
        (fun p => if p.key = k then { key := p.key, value := v } else p) ∧
    (store_upsert a st k v).freed = [oldv] := by
  have hf : findValue st.pairs k = some oldv :=
    findValue_eq_some_of_mem st.pairs k oldv hnd hmem
  rw [store_upsert_eq, hf] at hok ⊢
  unfold updateOutcome at hok ⊢
  dsimp only at hok ⊢
  by_cases ha : (allocNext a).1 = true
  · rw [if_pos ha]
    refine ⟨?_, rfl, ?_, rfl⟩
    · unfold KeyValueStore.item_count
      simp [length_updateValue]
    · simp [updateValue_eq_map_of_nodup st.pairs k v hnd]
  · simp [ha] at hok

/-- Witness for `update_overwrite_frame` on a two-entry store. -/
theorem update_overwrite_frame_witness :
    (store_upsert [] ⟨2, 8, [⟨"a", "x"⟩, ⟨"b", "y"⟩]⟩ "a" "z").store.item_count =
      (⟨2, 8, [⟨"a", "x"⟩, ⟨"b", "y"⟩]⟩ : KeyValueStore).item_count ∧
    (store_upsert [] ⟨2, 8, [⟨"a", "x"⟩, ⟨"b", "y"⟩]⟩ "a" "z").store.capacity = 8 ∧
    (store_upsert [] ⟨2, 8, [⟨"a", "x"⟩, ⟨"b", "y"⟩]⟩ "a" "z").store.pairs =
      ([⟨"a", "x"⟩, ⟨"b", "y"⟩] : List KeyValuePair).map
        (fun p => if p.key = "a" then { key := p.key, value := "z" } else p) ∧
    (store_upsert [] ⟨2, 8, [⟨"a", "x"⟩, ⟨"b", "y"⟩]⟩ "a" "z").freed = ["x"] :=
  update_overwrite_frame [] ⟨2, 8, [⟨"a", "x"⟩, ⟨"b", "y"⟩]⟩
    "a" "z" "x" (by decide) (by decide) (by decide)

/-- Claim C7: on a store with pairwise-distinct keys, lookup returns the value
bound to a byte-equal key when one exists, signals not-found otherwise, and
leaves the whole store state (entries, length, capacity, counter)
unchanged. -/
theorem lookup_spec (st : KeyValueStore) (k : String) (hnd : NodupKeys st) :
    (∀ v, ({ key := k, value := v } : KeyValuePair) ∈ st.pairs →
      (store_get_value (some st) (some k)).1 = some v) ∧
    (k ∉ st.keys → (store_get_value (some st) (some k)).1 = none) ∧
    (store_get_value (some st) (some k)).2 = some st := by
  refine ⟨fun v hv => ?_, fun hk => ?_, rfl⟩
  · simpa [store_get_value] using
      findValue_eq_some_of_mem st.pairs k v hnd hv
  · simpa [store_get_value] using (findValue_none_iff st.pairs k).mpr hk

/-- Witness for `lookup_spec`: a present key reads back its value, an absent
key reads back not-found, and the store is unchanged. -/
theorem lookup_spec_witness :
    ((store_get_value (some ⟨1, 8, [⟨"a", "x"⟩]⟩) (some "a")).1 = some "x" ∧
      (store_get_value (some ⟨1, 8, [⟨"a", "x"⟩]⟩) (some "a")).2 =
        some ⟨1, 8, [⟨"a", "x"⟩]⟩) ∧
    (store_get_value (some ⟨1, 8, [⟨"a", "x"⟩]⟩) (some "b")).1 = none :=
  ⟨⟨(lookup_spec ⟨1, 8, [⟨"a", "x"⟩]⟩ "a" (by decide)).1 "x" (by decide),
    (lookup_spec ⟨1, 8, [⟨"a", "x"⟩]⟩ "a" (by decide)).2.2⟩,
    (lookup_spec ⟨1, 8, [⟨"a", "x"⟩]⟩ "b" (by decide)).2.1 (by decide)⟩

/-- Claim C8: `store_create` returns either a store or an allocation failure
(`none`); on success the store has `item_count = 0`, `add_count = 0` and the
requested capacity, except that a request of `0` is normalized to the
default minimum `8`. -/
theorem create_spec (a : List Bool) (initial_capacity : Nat)
    (st : KeyValueStore) (rest : List Bool)
    (h : store_create a initial_capacity = (some st, rest)) :
    st.item_count = 0 ∧ st.add_count = 0 ∧
      st.capacity = (if initial_capacity = 0 then 8 else initial_capacity) := by
  obtain ⟨h1, h2, h3⟩ := store_create_elim a initial_capacity st rest h
  refine ⟨?_, h1, h2⟩
  unfold KeyValueStore.item_count
  rw [h3]
  rfl

/-- Witness for `create_spec` at requested capacities 5 and 0. -/
theorem create_spec_witness :
    (({ add_count := 0, capacity := 5, pairs := [] } :
        KeyValueStore).item_count = 0 ∧
      ({ add_count := 0, capacity := 5, pairs := [] } :
        KeyValueStore).add_count = 0 ∧
      ({ add_count := 0, capacity := 5, pairs := [] } :
        KeyValueStore).capacity = (if (5 : Nat) = 0 then 8 else 5)) ∧
    (({ add_count := 0, capacity := 8, pairs := [] } :
        KeyValueStore).item_count = 0 ∧
      ({ add_count := 0, capacity := 8, pairs := [] } :
        KeyValueStore).add_count = 0 ∧
      ({ add_count := 0, capacity := 8, pairs := [] } :
        KeyValueStore).capacity = (if (0 : Nat) = 0 then 8 else 0)) :=
  ⟨create_spec [] 5 { add_count := 0, capacity := 5, pairs := [] } []
      (by decide),
    create_spec [] 0 { add_count := 0, capacity := 8, pairs := [] } []
      (by decide)⟩

/-- Claim C10: null-argument handling.  `store_add_or_update_item` returns
`false`, frees nothing and leaves `*store_ptr` untouched when handed a null
`store_ptr`, a null `*store_ptr`, a null key or a null value;
`store_get_value` signals not-found for a null store or null key without
touching the store; `store_destroy` of a null store is a no-op (frees
nothing). -/
theorem null_argument_handling :
    (∀ a k v, store_add_or_update_item a none k v = (false, none, [], a)) ∧
    (∀ a k v,
      store_add_or_update_item a (some none) k v = (false, some none, [], a)) ∧
    (∀ a sp v, store_add_or_update_item a sp none v = (false, sp, [], a)) ∧
    (∀ a sp k, store_add_or_update_item a sp k none = (false, sp, [], a)) ∧
    (∀ k, store_get_value none k = (none, none)) ∧
    (∀ st, store_get_value st none = (none, st)) ∧
    store_destroy none = [] := by
  refine ⟨fun a k v => rfl, fun a k v => rfl, ?_, ?_, fun k => rfl, ?_, rfl⟩
  · intro a sp v
    rcases sp with _ | sp
    · rfl
    · rcases sp with _ | st <;> rfl
  · intro a sp k
    rcases sp with _ | sp
    · rfl
    · rcases sp with _ | st
      · rfl
      · rcases k with _ | k <;> rfl
  · intro st
    rcases st with _ | st <;> rfl

/-- Claim C3: key uniqueness.  A freshly created store has pairwise-distinct
keys; one upsert call (insert or update path, success or failure, any
allocator behaviour) preserves pairwise distinctness; lookup does not change
the store at all; hence any sequence of upsert calls starting from a fresh
store keeps `entries[0..length)` pairwise distinct after every call.
(`store_destroy` leaves no store behind, so there is nothing to preserve.) -/
theorem keys_pairwise_distinct :
    (∀ a c st rest, store_create a c = (some st, rest) → NodupKeys st) ∧
    (∀ a st k v, NodupKeys st → NodupKeys (store_upsert a st k v).store) ∧
    (∀ st k, (store_get_value (some st) (some k)).2 = some st) ∧
    (∀ ops a c st rest, store_create a c = (some st, rest) →
      NodupKeys (runUpserts st ops).1) := by
  have hcreate : ∀ a c st rest, store_create a c = (some st, rest) →
      NodupKeys st := by
    intro a c st rest h
    unfold NodupKeys KeyValueStore.keys
    rw [(store_create_elim a c st rest h).2.2]
    exact List.nodup_nil
  refine ⟨hcreate, NodupKeys_store_upsert, fun st k => rfl, ?_⟩
  intro ops a c st rest h
  exact NodupKeys_runUpserts ops st (hcreate a c st rest h)

/-- Witness for `keys_pairwise_distinct`: a fresh store, one upsert on a
concrete store, one full sequence (insert, duplicate insert, failing call)
from a fresh store. -/
theorem keys_pairwise_distinct_witness :
    NodupKeys (⟨0, 8, []⟩ : KeyValueStore) ∧
    NodupKeys (store_upsert [] ⟨1, 8, [⟨"a", "x"⟩]⟩ "a" "y").store ∧
    NodupKeys (runUpserts ⟨0, 8, []⟩
      [([], "a", "x"), ([], "a", "y"), ([false], "b", "z")]).1 :=
  ⟨keys_pairwise_distinct.1 [] 0 ⟨0, 8, []⟩ [] (by decide),
    keys_pairwise_distinct.2.1 [] ⟨1, 8, [⟨"a", "x"⟩]⟩ "a" "y" (by decide),
    keys_pairwise_distinct.2.2.2 [([], "a", "x"), ([], "a", "y"), ([false], "b", "z")]
      [] 0 ⟨0, 8, []⟩ [] (by decide)⟩

/-- Claim C4: no loss under growth.  Successfully upserting any sequence of
fresh, pairwise-distinct keys (in particular more of them than the current
capacity, which forces one or more doubling growth events) appends the new
entries in order and keeps every previously inserted entry; afterwards every
old key still reads back its old value. -/
theorem no_loss_under_growth (st : KeyValueStore) (ops : List (String × String))
    (hnd : NodupKeys st)
    (hfresh : ∀ op ∈ ops, op.1 ∉ st.keys)
    (hdist : (ops.map Prod.fst).Nodup) :
    (runAll st ops).pairs =
      st.pairs ++ ops.map (fun op => { key := op.1, value := op.2 }) ∧
    ∀ p ∈ st.pairs, findValue (runAll st ops).pairs p.key = some p.value := by
  have happend : ∀ (ops : List (String × String)) (st : KeyValueStore),
      (∀ op ∈ ops, op.1 ∉ st.keys) → (ops.map Prod.fst).Nodup →
      (runAll st ops).pairs =
        st.pairs ++ ops.map (fun op => { key := op.1, value := op.2 }) := by
    intro ops
    induction ops with
    | nil => intro st _ _; simp [runAll]
    | cons op ops ih =>
      intro st hfresh hdist
      obtain ⟨k, v⟩ := op
      have hf : findValue st.pairs k = none :=
        (findValue_none_iff st.pairs k).mpr (hfresh (k, v) (List.mem_cons_self _ _))
      simp only [runAll]
      rw [store_upsert_nil_notfound st k v hf]
      simp only [List.map_cons, List.nodup_cons] at hdist
      rw [ih _ ?_ hdist.2]
      · simp
      · intro op hop
        unfold KeyValueStore.keys
        simp only [List.map_append, List.mem_append]
        rintro (hmem | hmem)
        · exact hfresh op (List.mem_cons_of_mem _ hop) hmem
        · simp only [List.map_cons, List.map_nil, List.mem_singleton] at hmem
          exact hdist.1 (hmem ▸ List.mem_map.mpr ⟨op, hop, rfl⟩)
  refine ⟨happend ops st hfresh hdist, fun p hp => ?_⟩
  rw [happend ops st hfresh hdist, findValue_append,
    findValue_eq_some_of_mem st.pairs p.key p.value hnd hp]

/-- Witness for `no_loss_under_growth`: a store of capacity 1 holding one
entry receives two more distinct fresh keys, forcing growth twice; the old
entry survives with its value. -/
theorem no_loss_under_growth_witness :
    ((runAll ⟨1, 1, [⟨"a", "x"⟩]⟩ [("b", "y"), ("c", "z")]).pairs =
      [⟨"a", "x"⟩] ++
        ([("b", "y"), ("c", "z")] : List (String × String)).map
          (fun op => { key := op.1, value := op.2 }) ∧
    ∀ p ∈ ([⟨"a", "x"⟩] : List KeyValuePair),
      findValue (runAll ⟨1, 1, [⟨"a", "x"⟩]⟩ [("b", "y"), ("c", "z")]).pairs
        p.key = some p.value) :=
  no_loss_under_growth ⟨1, 1, [⟨"a", "x"⟩]⟩ [("b", "y"), ("c", "z")]
    (by decide) (by decide) (by decide)

/-- Claim C6: capacity discipline.  A successful create establishes
`length ≤ capacity` and `capacity ≥ 1`; every upsert call preserves both,
never shrinks the capacity, and changes the capacity only by doubling it,
which happens only on the insert path when the buffer is full
(`length = capacity`); lookup changes nothing. -/
theorem capacity_invariant :
    (∀ a c st rest, store_create a c = (some st, rest) →
      st.item_count ≤ st.capacity ∧ 1 ≤ st.capacity) ∧
    (∀ a st k v, st.item_count ≤ st.capacity → 1 ≤ st.capacity →
      (store_upsert a st k v).store.item_count ≤
        (store_upsert a st k v).store.capacity ∧
      1 ≤ (store_upsert a st k v).store.capacity ∧
      st.capacity ≤ (store_upsert a st k v).store.capacity ∧
      ((store_upsert a st k v).store.capacity = st.capacity ∨
        ((store_upsert a st k v).store.capacity = st.capacity * 2 ∧
          st.item_count = st.capacity ∧ findValue st.pairs k = none))) ∧
    (∀ st k, (store_get_value (some st) (some k)).2 = some st) := by
  refine ⟨?_, ?_, fun st k => rfl⟩
  · intro a c st rest h
    obtain ⟨-, hcap, hpairs⟩ := store_create_elim a c st rest h
    unfold KeyValueStore.item_count
    rw [hpairs, hcap]
    constructor
    · exact Nat.zero_le _
    · split_ifs with hc
      · omega
      · omega
  · intro a st k v h1 h2
    unfold KeyValueStore.item_count at h1 ⊢
    rw [store_upsert_eq]
    cases hf : findValue st.pairs k with
    | some oldv =>
      unfold updateOutcome
      dsimp only
      split_ifs <;>
        refine ⟨?_, ?_, ?_, Or.inl rfl⟩ <;>
          (simp only [length_updateValue]; omega)
    | none =>
      unfold insertOutcome insertCopies allocNext
      dsimp only
      split_ifs <;>
        refine ⟨?_, ?_, ?_, ?_⟩ <;>
          first
            | (simp only [List.length_append, List.length_cons,
                List.length_nil]; omega)
            | omega
            | exact Or.inl rfl
            | exact Or.inr ⟨rfl, by omega, rfl⟩

/-- Witness for `capacity_invariant`: a fresh store of capacity 2 and a
growth-triggering insert on a full store of capacity 1. -/
theorem capacity_invariant_witness :
    ((⟨0, 2, []⟩ : KeyValueStore).item_count ≤ 2 ∧ (1 : Nat) ≤ 2) ∧
    ((store_upsert [] ⟨1, 1, [⟨"a", "x"⟩]⟩ "b" "y").store.item_count ≤
        (store_upsert [] ⟨1, 1, [⟨"a", "x"⟩]⟩ "b" "y").store.capacity ∧
      1 ≤ (store_upsert [] ⟨1, 1, [⟨"a", "x"⟩]⟩ "b" "y").store.capacity ∧
      (1 : Nat) ≤ (store_upsert [] ⟨1, 1, [⟨"a", "x"⟩]⟩ "b" "y").store.capacity ∧
      ((store_upsert [] ⟨1, 1, [⟨"a", "x"⟩]⟩ "b" "y").store.capacity = 1 ∨
        ((store_upsert [] ⟨1, 1, [⟨"a", "x"⟩]⟩ "b" "y").store.capacity = 1 * 2 ∧
          (⟨1, 1, [⟨"a", "x"⟩]⟩ : KeyValueStore).item_count = 1 ∧
          findValue [⟨"a", "x"⟩] "b" = none))) :=
  ⟨capacity_invariant.1 [] 2 ⟨0, 2, []⟩ [] (by decide),
    capacity_invariant.2.1 [] ⟨1, 1, [⟨"a", "x"⟩]⟩ "b" "y" (by decide) (by decide)⟩

/-! ## The stress harness: interleaving lemmas -/

theorem flatMap_single {α β : Type} (l : List α) (f : α → List β) (a : α)
    (ha : a ∈ l) (hnd : l.Nodup) (hother : ∀ b ∈ l, b ≠ a → f b = []) :
    l.flatMap f = f a := by
  induction l with
  | nil => cases ha
  | cons x xs ih =>
    rw [List.flatMap_cons, List.nodup_cons] at *
    rcases List.mem_cons.mp ha with rfl | hmem
    · have hxs : xs.flatMap f = [] :=
        List.flatMap_eq_nil_iff.mpr
          (fun b hb => hother b (List.mem_cons_of_mem _ hb)
            (fun he => hnd.1 (he ▸ hb)))
      rw [hxs, List.append_nil]
    · have hx : f x = [] :=
        hother x (List.mem_cons_self _ _) (fun he => hnd.1 (he ▸ hmem))
      rw [hx, List.nil_append]
      exact ih hmem hnd.2
        (fun b hb hne => hother b (List.mem_cons_of_mem _ hb) hne)

theorem range_filter_eq_singleton (D i : Nat) (hi : i < D) (q : Nat → Bool)
    (hq : ∀ j, j < D → (q j = true ↔ j = i)) :
    (List.range D).filter q = [i] := by
  induction D with
  | zero => omega
  | succ d ih =>
    rw [List.range_succ, List.filter_append]
    by_cases hd : i = d
    · subst hd
      have h1 : (List.range i).filter q = [] :=
        List.filter_eq_nil_iff.mpr (fun j hj hqj =>
          absurd ((hq j (by
            have := List.mem_range.mp hj
            omega)).mp hqj) (by
              have := List.mem_range.mp hj
              omega))
      have h2 : q i = true := (hq i (by omega)).mpr rfl
      rw [h1, List.nil_append]
      simp [List.filter, h2]
    · have h1 : (List.range d).filter q = [i] :=
        ih (by omega) (fun j hj => hq j (by omega))
      have h2 : q d = false := by
        by_cases h : q d = true
        · exact absurd ((hq d (by omega)).mp h) (fun he => hd he.symm)
        · simpa using h
      rw [h1]
      simp [List.filter, h2]

theorem threadOps_filter_self (T D : Nat) (key : Nat → Nat → String)
    (val : Nat → String) (t i : Nat) (hD : 0 < D) (ht : t < T) (hi : i < D)
    (hinj : ∀ t₁ i₁ t₂ i₂, t₁ < T → i₁ < D → t₂ < T → i₂ < D →
      key t₁ i₁ = key t₂ i₂ → t₁ = t₂ ∧ i₁ = i₂) :
    (threadOps D key val t).filter (fun op => op.1 = key t i) =
      (key t i, val t) ::
        (if i = 0 then [(key t 0, "UPDATED_VALUE")] else []) := by
  unfold threadOps
  rw [List.filter_append, List.filter_map]
  have h1 : (List.range D).filter
      ((fun op : String × String => decide (op.1 = key t i)) ∘
        (fun j => (key t j, val t))) = [i] := by
    apply range_filter_eq_singleton D i hi
    intro j hj
    simp only [Function.comp_apply, decide_eq_true_eq]
    constructor
    · intro he
      exact (hinj t j t i ht hj ht hi he).2
    · rintro rfl
      rfl
  rw [h1]
  by_cases h0 : i = 0
  · subst h0
    simp [List.filter]
  · have hne : ¬ key t 0 = key t i :=
      fun he => h0 ((hinj t 0 t i ht hD ht hi he).2).symm
    simp [List.filter, hne, h0]

theorem threadOps_filter_other (T D : Nat) (key : Nat → Nat → String)
    (val : Nat → String) (t t' i : Nat) (hD : 0 < D) (ht : t < T)
    (ht' : t' < T) (hi : i < D) (hne : t' ≠ t)
    (hinj : ∀ t₁ i₁ t₂ i₂, t₁ < T → i₁ < D → t₂ < T → i₂ < D →
      key t₁ i₁ = key t₂ i₂ → t₁ = t₂ ∧ i₁ = i₂) :
    (threadOps D key val t').filter (fun op => op.1 = key t i) = [] := by
  unfold threadOps
  rw [List.filter_append]
  have h1 : ((List.range D).map (fun j => (key t' j, val t'))).filter
      (fun op => op.1 = key t i) = [] := by
    apply List.filter_eq_nil_iff.mpr
    rintro x hx
    obtain ⟨j, hj, rfl⟩ := List.mem_map.mp hx
    simp only [decide_eq_true_eq]
    intro he
    exact hne (hinj t' j t i ht' (List.mem_range.mp hj) ht hi he).1
  have h2 : ([(key t' 0, "UPDATED_VALUE")] :
      List (String × String)).filter (fun op => op.1 = key t i) = [] := by
    apply List.filter_eq_nil_iff.mpr
    rintro x hx
    rw [List.mem_singleton] at hx
    subst hx
    simp only [decide_eq_true_eq]
    intro he
    exact hne (hinj t' 0 t i ht' hD ht hi he).1
  rw [h1, h2, List.nil_append]

theorem allOps_filter (T D : Nat) (key : Nat → Nat → String)
    (val : Nat → String) (t i : Nat) (hD : 0 < D) (ht : t < T) (hi : i < D)
    (hinj : ∀ t₁ i₁ t₂ i₂, t₁ < T → i₁ < D → t₂ < T → i₂ < D →
      key t₁ i₁ = key t₂ i₂ → t₁ = t₂ ∧ i₁ = i₂) :
    (allOps T D key val).filter (fun op => op.1 = key t i) =
      (key t i, val t) ::
        (if i = 0 then [(key t 0, "UPDATED_VALUE")] else []) := by
  unfold allOps
  rw [List.filter_flatMap]
  rw [flatMap_single (List.range T) _ t (List.mem_range.mpr ht)
    (List.nodup_range T) ?_]
  · exact threadOps_filter_self T D key val t i hD ht hi hinj
  · intro t' ht' hne
    exact threadOps_filter_other T D key val t t' i hD ht
      (List.mem_range.mp ht') hi hne hinj

theorem allOps_length (T D : Nat) (key : Nat → Nat → String)
    (val : Nat → String) :
    (allOps T D key val).length = T * D + T := by
  unfold allOps
  rw [List.length_flatMap]
  have h : (List.range T).map (List.length ∘ threadOps D key val) =
      List.replicate T (D + 1) := by
    have hfun : (List.length ∘ threadOps D key val) = fun _ => D + 1 := by
      funext t
      simp [threadOps]
    rw [hfun, List.map_const', List.length_range]
  rw [h, List.sum_replicate, smul_eq_mul, Nat.mul_add, Nat.mul_one]

theorem mem_map_fst_allOps (T D : Nat) (key : Nat → Nat → String)
    (val : Nat → String) (hD : 0 < D) (x : String) :
    x ∈ (allOps T D key val).map Prod.fst ↔
      ∃ t i, t < T ∧ i < D ∧ x = key t i := by
  unfold allOps threadOps
  rw [List.map_flatMap]
  simp only [List.mem_flatMap, List.mem_range, List.map_append, List.map_map,
    List.mem_append, List.mem_map, List.mem_range, List.map_cons,
    List.map_nil, List.mem_singleton, Function.comp_apply]
  constructor
  · rintro ⟨t, ht, h⟩
    rcases h with ⟨j, hj, rfl⟩ | rfl
    · exact ⟨t, j, ht, hj, rfl⟩
    · exact ⟨t, 0, ht, hD, rfl⟩
  · rintro ⟨t, i, ht, hi, rfl⟩
    exact ⟨t, ht, Or.inl ⟨i, hi, rfl⟩⟩

/-- Claim C9: the concurrency stress property.  In the harness every
`store_add_or_update_item` call runs while holding the global `main_mutex`,
so a complete run is exactly an interleaving of the per-thread call
sequences: a list `ops` that is a permutation of all `T` threads' calls in
which every thread's own calls stay in program order (`Sublist`).  For every
such interleaving, with pairwise-distinct keys across threads and no
allocation failures, the final `length` is `T*D`, the final counter is
`T*D + T` taken modulo `uintModulus` (the `atomic_uint` wraps) — which is
`T*D + T` itself whenever the call total stays below `uintModulus`, as the
harness's 404 calls do — and every key reads back its correct final value:
thread `t`'s
key `i` holds `"UPDATED_VALUE"` for `i = 0` and the thread's value for every
other `i`.  (T = 4, D = 100 of the harness is the instance `T := 4`,
`D := 100`.) -/
theorem concurrency_stress (T D : Nat) (key : Nat → Nat → String)
    (val : Nat → String) (st : KeyValueStore) (ops : List (String × String))
    (hD : 0 < D)
    (hinj : ∀ t₁ i₁ t₂ i₂, t₁ < T → i₁ < D → t₂ < T → i₂ < D →
      key t₁ i₁ = key t₂ i₂ → t₁ = t₂ ∧ i₁ = i₂)
    (hfresh : st.pairs = [])
    (hcount : st.add_count = 0)
    (hperm : ops.Perm (allOps T D key val))
    (hsub : ∀ t, t < T → (threadOps D key val t).Sublist ops) :
    (runAll st ops).item_count = T * D ∧
    (runAll st ops).add_count = (T * D + T) % uintModulus ∧
    (T * D + T < uintModulus → (runAll st ops).add_count = T * D + T) ∧
    (∀ t i, t < T → i < D →
      (store_get_value (some (runAll st ops)) (some (key t i))).1 =
        some (if i = 0 then "UPDATED_VALUE" else val t)) := by
  have hcnt : (runAll st ops).add_count = (T * D + T) % uintModulus := by
    have h := runAll_add_count ops st (by rw [hcount]; decide)
    rw [hcount, Nat.zero_add, hperm.length_eq, allOps_length] at h
    exact h
  refine ⟨?_, hcnt, fun hsmall => by rw [hcnt, Nat.mod_eq_of_lt hsmall], ?_⟩
  · -- final length = number of distinct keys = T * D
    have hnd : NodupKeys (runAll st ops) := by
      apply NodupKeys_runAll
      unfold NodupKeys KeyValueStore.keys
      rw [hfresh]
      exact List.nodup_nil
    have hmem : ∀ x, x ∈ (runAll st ops).keys ↔
        ∃ t i, t < T ∧ i < D ∧ x = key t i := by
      intro x
      rw [mem_keys_runAll]
      unfold KeyValueStore.keys
      rw [hfresh]
      simp only [List.map_nil, List.not_mem_nil, false_or]
      rw [(hperm.map Prod.fst).mem_iff]
      exact mem_map_fst_allOps T D key val hD x
    have htof : (runAll st ops).keys.toFinset =
        (Finset.range T ×ˢ Finset.range D).image
          (fun p => key p.1 p.2) := by
      ext x
      rw [List.mem_toFinset, hmem x]
      simp only [Finset.mem_image, Finset.mem_product, Finset.mem_range]
      constructor
      · rintro ⟨t, i, ht, hi, rfl⟩
        exact ⟨(t, i), ⟨ht, hi⟩, rfl⟩
      · rintro ⟨⟨t, i⟩, ⟨ht, hi⟩, rfl⟩
        exact ⟨t, i, ht, hi, rfl⟩
    have hinjOn : Set.InjOn (fun p : Nat × Nat => key p.1 p.2)
        ↑(Finset.range T ×ˢ Finset.range D) := by
      rintro ⟨t, i⟩ hp ⟨t', i'⟩ hq he
      simp only [Finset.coe_product, Set.mem_prod, Finset.mem_coe,
        Finset.mem_range] at hp hq
      obtain ⟨rfl, rfl⟩ := hinj t i t' i' hp.1 hp.2 hq.1 hq.2 he
      rfl
    have hcard := List.toFinset_card_of_nodup hnd
    rw [htof, Finset.card_image_of_injOn hinjOn, Finset.card_product,
      Finset.card_range, Finset.card_range] at hcard
    have hkl : (runAll st ops).keys.length = (runAll st ops).pairs.length :=
      List.length_map _ _
    unfold KeyValueStore.item_count
    omega
  · -- every key reads back its final value
    intro t i ht hi
    have hall := allOps_filter T D key val t i hD ht hi hinj
    have hpf := hperm.filter (fun op => decide (op.1 = key t i))
    have hfilter : ops.filter (fun op => op.1 = key t i) =
        (key t i, val t) ::
          (if i = 0 then [(key t 0, "UPDATED_VALUE")] else []) := by
      by_cases h0 : i = 0
      · subst h0
        have hsubf := (hsub t ht).filter
          (fun op => decide (op.1 = key t 0))
        rw [threadOps_filter_self T D key val t 0 hD ht hD hinj] at hsubf
        have hlen : ((key t 0, val t) ::
            (if (0 : Nat) = 0 then [(key t 0, "UPDATED_VALUE")]
              else [])).length =
            (ops.filter (fun op => op.1 = key t 0)).length := by
          rw [hpf.length_eq, hall]
        exact (hsubf.eq_of_length hlen).symm
      · rw [if_neg h0] at hall
        rw [hall] at hpf
        rw [List.perm_singleton.mp hpf, if_neg h0]
    show findValue (runAll st ops).pairs (key t i) = _
    rw [findValue_runAll]
    unfold lastWrite
    rw [hfilter]
    by_cases h0 : i = 0
    · subst h0
      rw [if_pos rfl, if_pos rfl, getLast?_cons]
      simp
    · rw [if_neg h0, if_neg h0]
      simp

/-- Witness for `concurrency_stress`: one thread, one key
(`T = 1`, `D = 1`), serialized in program order. -/
theorem concurrency_stress_witness :
    (runAll ⟨0, 10, []⟩
        [("k00", "v0"), ("k00", "UPDATED_VALUE")]).item_count = 1 * 1 ∧
    (runAll ⟨0, 10, []⟩
        [("k00", "v0"), ("k00", "UPDATED_VALUE")]).add_count =
      (1 * 1 + 1) % uintModulus ∧
    (1 * 1 + 1 < uintModulus →
      (runAll ⟨0, 10, []⟩
        [("k00", "v0"), ("k00", "UPDATED_VALUE")]).add_count = 1 * 1 + 1) ∧
    (∀ t i, t < 1 → i < 1 →
      (store_get_value
          (some (runAll ⟨0, 10, []⟩
            [("k00", "v0"), ("k00", "UPDATED_VALUE")]))
          (some ((fun _ _ => "k00") t i))).1 =
        some (if i = 0 then "UPDATED_VALUE" else (fun _ => "v0") t)) :=
  concurrency_stress 1 1 (fun _ _ => "k00") (fun _ => "v0") ⟨0, 10, []⟩
    [("k00", "v0"), ("k00", "UPDATED_VALUE")]
    (by decide)
    (fun t₁ i₁ t₂ i₂ h₁ h₂ h₃ h₄ _ => ⟨by omega, by omega⟩)
    rfl rfl
    (by decide)
    (fun t ht => by
      have : t = 0 := by omega
      subst this
      decide)
